import Mathlib

/-!
# Verification of the forward-selection core of `lesson-06-train-and-test.ipynb`

This file gives a shallow embedding of the `data_mining` routine (greedy
forward-selection regression) of the notebook, together with the
train/validate/test partition masks, and proves / refutes the specification
claims about them.

The external statsmodels call `smf.ols(formula, data).fit().rsquared_adj` is
abstracted as a function from the list of predictor column names appearing in
the formula to the adjusted R-squared it returns.  Because the fit may in
principle fail (raise), the abstraction is `fit : List String → Option ℚ`,
`none` standing for a raised exception; the everywhere-defined case is
recovered through `totalFit`.  Python's `set` iteration order is unspecified,
so the candidate pool is carried as a `List String` whose order stands for the
iteration order of the set; theorems that depend on this quantify over
permutations of that list.
-/

deriving instance DecidableEq for Except

namespace Lesson06

/-- Python's comparison of strings, spelled out on the underlying character
lists: lexicographic by Unicode code point. -/
def charsLe : List Char → List Char → Bool
  | [], _ => true
  | _ :: _, [] => false
  | a :: as, b :: bs => decide (a < b) || (decide (a = b) && charsLe as bs)

/-- `s <= t` on Python strings. -/
def strLe (s t : String) : Bool := charsLe s.data t.data

/-- Python tuple comparison on the `(score, candidate)` pairs that
`data_mining` sorts: lexicographic on the rational score and then on the
candidate name. -/
def pairLe (p q : ℚ × String) : Bool :=
  decide (p.1 < q.1) || (decide (p.1 = q.1) && strLe p.2 q.2)

/-- `scores_with_candidates.sort()` followed by `.pop()`: sort the pairs
ascending and take the last (greatest) one.  `none` only when the list is
empty.  (Python's `list.sort` is a stable ascending sort; insertion sort is
stable too, and the `pairLe` order is total and antisymmetric, so the sorted
list — hence the popped pair — is the same.) -/
def popBest (l : List (ℚ × String)) : Option (ℚ × String) :=
  (List.insertionSort (fun a b => pairLe a b = true) l).getLast?

/-- The mutable state of the `while` loop of `data_mining`: the candidate
pool `remaining` (a Python set, carried here in iteration order), the
ordered list `selected`, and the two score variables.  `trace` records the
`print(current_score)` progress observations emitted at accepted steps. -/
structure LoopState where
  remaining : List String
  selected : List String
  current_score : ℚ
  best_new_score : ℚ
  trace : List ℚ
deriving DecidableEq, Repr

/-- The exceptions `data_mining` can raise: `keyError` from
`remaining.remove(dv)` when the dependent variable is not a column,
`typeError` from the string-plus-list concatenation
`'model overfitted: ' + selected`, and `fitError` when an `smf.ols(...).fit()`
call raises (the argument is the predictor list of the offending formula). -/
inductive PyError where
  | keyError : String → PyError
  | typeError : List String → PyError
  | fitError : List String → PyError
deriving DecidableEq, Repr

/-- The inner `for candidate in remaining` loop: evaluate
`fit (selected ++ [candidate])` for each candidate in iteration order and
collect the `(score, candidate)` pairs; a raised fit exception aborts the
loop (there is no `try`/`except` in the source) and propagates the offending
formula. -/
def collectScores (fit : List String → Option ℚ) (selected : List String) :
    List String → Except (List String) (List (ℚ × String))
  | [] => .ok []
  | c :: rest =>
    match fit (selected ++ [c]) with
    | none => .error (selected ++ [c])
    | some s => (collectScores fit selected rest).map (fun l => (s, c) :: l)

/-- The guard of the `while` loop:
`while remaining and current_score == best_new_score`. -/
def loopCond (st : LoopState) : Bool :=
  !st.remaining.isEmpty && st.current_score == st.best_new_score

/-- One execution of the body of the `while` loop of `data_mining`.  The
last pair appended by the inner loop carries the stale `score` variable that
the `if score == 1` overfit check reads; when that check fires the
concatenation `'model overfitted: ' + selected` raises `TypeError`. -/
def loopStep (fit : List String → Option ℚ) (st : LoopState) :
    Except PyError LoopState :=
  match collectScores fit st.selected st.remaining with
  | .error f => .error (.fitError f)
  | .ok swc =>
    match popBest swc, swc.getLast? with
    | some (bns, bc), some lastPair =>
      if st.current_score < bns then
        let selected' := st.selected ++ [bc]
        if lastPair.1 == 1 then
          .error (.typeError selected')
        else
          .ok ⟨st.remaining.erase bc, selected', bns, bns, st.trace ++ [bns]⟩
      else
        .ok { st with best_new_score := bns }
    | _, _ => .ok st

/-- Iterate the `while` loop.  `fuel` bounds the number of body executions;
`none` means the loop was still running when the fuel ran out, so
`runLoop fit fuel st = none` for every `fuel` models non-termination. -/
def runLoop (fit : List String → Option ℚ) :
    Nat → LoopState → Option (Except PyError LoopState)
  | 0, st => if loopCond st then none else some (.ok st)
  | fuel + 1, st =>
    if loopCond st then
      match loopStep fit st with
      | .error e => some (.error e)
      | .ok st' => runLoop fit fuel st'
    else some (.ok st)

/-- The state at the top of the loop:
`remaining = set(data.columns); remaining.remove(dv); selected = [];
current_score, best_new_score = 0.0, 0.0`. -/
def initState (columns : List String) (dv : String) : LoopState :=
  ⟨columns.erase dv, [], 0, 0, []⟩

/-- The observable outcome of a completed `data_mining` call: the returned
model's predictor list (selection order), the final `current_score`, and the
sequence of printed progress scores. -/
structure MiningResult where
  selected : List String
  current_score : ℚ
  trace : List ℚ
deriving DecidableEq, Repr

/-- Shallow embedding of `data_mining(data, dv)`.  `columns` is
`data.columns`; a missing dependent variable raises `KeyError` at
`remaining.remove(dv)`; otherwise the `while` loop runs and, on normal exit,
the final `smf.ols` fit over `selected` produces the returned model. -/
def data_mining (fit : List String → Option ℚ) (columns : List String)
    (dv : String) (fuel : Nat) : Option (Except PyError MiningResult) :=
  if dv ∈ columns then
    match runLoop fit fuel (initState columns dv) with
    | none => none
    | some (.error e) => some (.error e)
    | some (.ok st) =>
      match fit st.selected with
      | none => some (.error (.fitError st.selected))
      | some _ => some (.ok ⟨st.selected, st.current_score, st.trace⟩)
  else some (.error (.keyError dv))

/-- An everywhere-defined fit, the de-facto behaviour of statsmodels' OLS
(which does not raise on the data the notebook feeds it). -/
def totalFit (score : List String → ℚ) : List String → Option ℚ :=
  fun l => some (score l)

/-- The list of `(score, candidate)` pairs the inner loop builds when the fit
is total. -/
def scoresWithCandidates (score : List String → ℚ) (selected : List String)
    (remaining : List String) : List (ℚ × String) :=
  remaining.map fun c => (score (selected ++ [c]), c)

/-- The running `current_score` as a function of the selected list: `0.0`
before any acceptance, and the score of the selected predictors afterwards. -/
def currentOf (score : List String → ℚ) (selected : List String) : ℚ :=
  match selected with
  | [] => 0
  | _ => score selected

/-- A sample fit used to instantiate the theorems on concrete runs: the
adjusted R-squared only depends on the number of predictors and equals
`k + 1` for `k` predictors (so every additional variable strictly improves
the score and no evaluated formula ever scores the overfit literal 1). -/
def scoreRise : List String → ℚ :=
  fun l => ((l.length + 1 : Nat) : ℚ)

/-- A fit whose adjusted R-squared is 1 on the single predictor `a`, 2 on the
single predictor `b` and 0 elsewhere; used to exercise the stale overfit
check on concrete runs. -/
def scoreStale : List String → ℚ :=
  fun l => if l = ["a"] then 1 else if l = ["b"] then 2 else 0

/-- A fallible fit that raises exactly on the single-predictor formula `a`,
used to exercise the propagation of fit failures. -/
def failOnA : List String → Option ℚ :=
  fun l => if l = ["a"] then none else some 0

/-- The invariant `data_mining` maintains on its loop state when started from
`n₀` distinct candidates: `selected` and `remaining` are duplicate-free and
disjoint, and together they always hold exactly the `n₀` initial candidates. -/
def StateInv (n₀ : Nat) (st : LoopState) : Prop :=
  st.selected.Nodup ∧ st.remaining.Nodup ∧
    (∀ x ∈ st.selected, x ∉ st.remaining) ∧
    st.remaining.length + st.selected.length = n₀

/-- Python's `list(range(start, stop, step))` for a positive `step`. -/
def pyRange (start stop step : Nat) : List Nat :=
  List.range' start ((stop - start + step - 1) / step) step

/-- `train_mask = list(range(0,180,4))` then
`train_mask = train_mask + list(range(1,180,4))` then `train_mask.sort()`. -/
def train_mask : List Nat :=
  List.insertionSort (fun a b => a ≤ b) (pyRange 0 180 4 ++ pyRange 1 180 4)

/-- `validate_mask = list(range(2,180,4))`. -/
def validate_mask : List Nat := pyRange 2 180 4

/-- `test_mask = list(range(3,180,4))`. -/
def test_mask : List Nat := pyRange 3 180 4

/- ## Order-theoretic facts about `charsLe`, `pairLe` and `popBest` -/

theorem charsLe_refl : ∀ l, charsLe l l = true
  | [] => rfl
  | a :: as => by simp [charsLe, charsLe_refl as]

theorem charsLe_trans : ∀ l m n, charsLe l m = true → charsLe m n = true →
    charsLe l n = true
  | [], _, _ => fun _ _ => rfl
  | a :: as, [], _ => by simp [charsLe]
  | a :: as, b :: bs, [] => by simp [charsLe]
  | a :: as, b :: bs, c :: cs => by
    simp only [charsLe, Bool.or_eq_true, Bool.and_eq_true, decide_eq_true_eq]
    rintro (h1 | ⟨rfl, h1⟩) (h2 | ⟨rfl, h2⟩)
    · exact Or.inl (h1.trans h2)
    · exact Or.inl h1
    · exact Or.inl h2
    · exact Or.inr ⟨rfl, charsLe_trans as bs cs h1 h2⟩

theorem charsLe_total : ∀ l m, charsLe l m = true ∨ charsLe m l = true
  | [], _ => Or.inl rfl
  | _ :: _, [] => Or.inr rfl
  | a :: as, b :: bs => by
    simp only [charsLe, Bool.or_eq_true, Bool.and_eq_true, decide_eq_true_eq]
    rcases lt_trichotomy a b with h | rfl | h
    · exact Or.inl (Or.inl h)
    · rcases charsLe_total as bs with h' | h'
      · exact Or.inl (Or.inr ⟨rfl, h'⟩)
      · exact Or.inr (Or.inr ⟨rfl, h'⟩)
    · exact Or.inr (Or.inl h)

theorem charsLe_antisymm : ∀ l m, charsLe l m = true → charsLe m l = true →
    l = m
  | [], [] => fun _ _ => rfl
  | [], _ :: _ => by simp [charsLe]
  | _ :: _, [] => by simp [charsLe]
  | a :: as, b :: bs => by
    simp only [charsLe, Bool.or_eq_true, Bool.and_eq_true, decide_eq_true_eq]
    rintro (h1 | ⟨rfl, h1⟩) (h2 | ⟨h2e, h2⟩)
    · exact absurd h2 (lt_asymm h1)
    · exact absurd (h2e ▸ h1) (lt_irrefl _)
    · exact absurd h2 (lt_irrefl _)
    · rw [charsLe_antisymm as bs h1 h2]

theorem strLe_refl (s : String) : strLe s s = true := charsLe_refl s.data

theorem strLe_trans {s t u : String} (h1 : strLe s t = true)
    (h2 : strLe t u = true) : strLe s u = true :=
  charsLe_trans s.data t.data u.data h1 h2

theorem strLe_total (s t : String) : strLe s t = true ∨ strLe t s = true :=
  charsLe_total s.data t.data

theorem strLe_antisymm {s t : String} (h1 : strLe s t = true)
    (h2 : strLe t s = true) : s = t :=
  String.ext (charsLe_antisymm s.data t.data h1 h2)

theorem pairLe_iff (p q : ℚ × String) :
    pairLe p q = true ↔ p.1 < q.1 ∨ (p.1 = q.1 ∧ strLe p.2 q.2 = true) := by
  simp [pairLe]

theorem pairLe_refl (p : ℚ × String) : pairLe p p = true := by
  rw [pairLe_iff]
  exact Or.inr ⟨rfl, strLe_refl p.2⟩

theorem pairLe_trans (a b c : ℚ × String) (hab : pairLe a b) (hbc : pairLe b c) :
    pairLe a c := by
  rw [pairLe_iff] at *
  rcases hab with h1 | ⟨h1, h1'⟩ <;> rcases hbc with h2 | ⟨h2, h2'⟩
  · exact Or.inl (h1.trans h2)
  · exact Or.inl (h2 ▸ h1)
  · exact Or.inl (h1 ▸ h2)
  · exact Or.inr ⟨h1.trans h2, strLe_trans h1' h2'⟩

theorem pairLe_total (a b : ℚ × String) : pairLe a b || pairLe b a := by
  rcases lt_trichotomy a.1 b.1 with h | h | h
  · simp [pairLe_iff, h]
  · rcases strLe_total a.2 b.2 with h' | h'
    · simp only [Bool.or_eq_true, pairLe_iff]
      exact Or.inl (Or.inr ⟨h, h'⟩)
    · simp only [Bool.or_eq_true, pairLe_iff]
      exact Or.inr (Or.inr ⟨h.symm, h'⟩)
  · simp [pairLe_iff, h]

theorem pairLe_antisymm (a b : ℚ × String) (hab : pairLe a b = true)
    (hba : pairLe b a = true) : a = b := by
  rw [pairLe_iff] at hab hba
  rcases hab with h1 | ⟨h1, h1'⟩ <;> rcases hba with h2 | ⟨h2, h2'⟩
  · exact absurd h2 (lt_asymm h1)
  · exact absurd h1 (h2 ▸ lt_irrefl _)
  · exact absurd h2 (h1 ▸ lt_irrefl _)
  · exact Prod.ext h1 (strLe_antisymm h1' h2')

instance : IsAntisymm (ℚ × String) (fun a b => pairLe a b = true) :=
  ⟨pairLe_antisymm⟩

instance : IsTrans (ℚ × String) (fun a b => pairLe a b = true) :=
  ⟨pairLe_trans⟩

instance : IsTotal (ℚ × String) (fun a b => pairLe a b = true) :=
  ⟨fun a b => by
    rcases Bool.or_eq_true_iff.mp (pairLe_total a b) with h | h
    · exact Or.inl h
    · exact Or.inr h⟩

/-- In a `Pairwise`-ordered list, every element is either the last element or
related to it. -/
theorem pairwise_getLast_max {α : Type} {R : α → α → Prop} :
    ∀ {l : List α} {m : α}, l.Pairwise R → l.getLast? = some m →
      ∀ x ∈ l, x = m ∨ R x m
  | [], m, _, hm => by simp at hm
  | [a], m, _, hm => by
    simp [List.getLast?] at hm
    subst hm
    intro x hx
    simp at hx
    exact Or.inl hx
  | a :: b :: t, m, hp, hm => by
    rw [List.getLast?_cons_cons] at hm
    have hmem : m ∈ b :: t := List.mem_of_mem_getLast? hm
    intro x hx
    rcases List.mem_cons.mp hx with rfl | hx
    · exact Or.inr ((List.pairwise_cons.mp hp).1 m hmem)
    · exact pairwise_getLast_max (List.pairwise_cons.mp hp).2 hm x hx

theorem popBest_isSome {l : List (ℚ × String)} (h : l ≠ []) :
    ∃ p, popBest l = some p := by
  unfold popBest
  cases hq : (List.insertionSort (fun a b => pairLe a b = true) l).getLast? with
  | none =>
    rw [List.getLast?_eq_none_iff] at hq
    have := (List.perm_insertionSort (fun a b => pairLe a b = true) l).length_eq
    rw [hq] at this
    exact absurd (List.length_eq_zero.mp this.symm) h
  | some p => exact ⟨p, rfl⟩

theorem popBest_mem {l : List (ℚ × String)} {p : ℚ × String}
    (h : popBest l = some p) : p ∈ l := by
  have := List.mem_of_mem_getLast? h
  exact (List.perm_insertionSort (fun a b => pairLe a b = true) l).subset this

/-- `sort()` followed by `.pop()` yields an upper bound of the whole list in
the Python tuple order: the popped pair has the maximal score, and among
maximal-score pairs the greatest candidate name. -/
theorem popBest_max {l : List (ℚ × String)} {p : ℚ × String}
    (h : popBest l = some p) : ∀ q ∈ l, pairLe q p = true := by
  intro q hq
  have hs : (List.insertionSort (fun a b => pairLe a b = true) l).Pairwise
      (fun a b => pairLe a b = true) :=
    List.sorted_insertionSort (fun a b => pairLe a b = true) l
  have hq' : q ∈ List.insertionSort (fun a b => pairLe a b = true) l :=
    (List.perm_insertionSort (fun a b => pairLe a b = true) l).mem_iff.mpr hq
  rcases pairwise_getLast_max hs h q hq' with rfl | h'
  · exact pairLe_refl q
  · exact h'

/-- The result of sort-then-pop does not depend on the iteration order of the
candidate set: permuted inputs give the same popped pair. -/
theorem popBest_congr {l₁ l₂ : List (ℚ × String)} (h : l₁.Perm l₂) :
    popBest l₁ = popBest l₂ := by
  unfold popBest
  congr 1
  exact List.eq_of_perm_of_sorted (r := fun a b => pairLe a b = true)
    ((List.perm_insertionSort _ l₁).trans
      (h.trans (List.perm_insertionSort _ l₂).symm))
    (List.sorted_insertionSort _ l₁)
    (List.sorted_insertionSort _ l₂)

/- ## Basic facts about the loop body and the loop driver -/

/-- With a total fit the inner loop never raises and simply builds the
`(score, candidate)` list in iteration order. -/
theorem collectScores_totalFit (score : List String → ℚ) (sel : List String) :
    ∀ rem, collectScores (totalFit score) sel rem =
      .ok (scoresWithCandidates score sel rem) := by
  intro rem
  induction rem with
  | nil => rfl
  | cons c rest ih =>
    simp [collectScores, totalFit, scoresWithCandidates, ih, Except.map]

theorem collectScores_ok_mem (fit : List String → Option ℚ) (sel : List String) :
    ∀ (rem swc : List _), collectScores fit sel rem = .ok swc →
      ∀ p ∈ swc, p.2 ∈ rem ∧ fit (sel ++ [p.2]) = some p.1 := by
  intro rem
  induction rem with
  | nil =>
    intro swc h p hp
    simp [collectScores] at h
    subst h
    simp at hp
  | cons c rest ih =>
    intro swc h p hp
    rw [collectScores] at h
    cases hf : fit (sel ++ [c]) with
    | none => rw [hf] at h; exact absurd h (by simp)
    | some s =>
      rw [hf] at h
      cases hr : collectScores fit sel rest with
      | error f => rw [hr] at h; exact absurd h (by simp [Except.map])
      | ok l =>
        rw [hr] at h
        simp [Except.map] at h
        subst h
        rcases List.mem_cons.mp hp with rfl | hp'
        · exact ⟨List.mem_cons_self _ _, hf⟩
        · obtain ⟨h1, h2⟩ := ih l hr p hp'
          exact ⟨List.mem_cons_of_mem _ h1, h2⟩

theorem collectScores_ok_length (fit : List String → Option ℚ) (sel : List String) :
    ∀ (rem swc : List _), collectScores fit sel rem = .ok swc →
      swc.length = rem.length := by
  intro rem
  induction rem with
  | nil =>
    intro swc h
    simp [collectScores] at h
    subst h
    rfl
  | cons c rest ih =>
    intro swc h
    rw [collectScores] at h
    cases hf : fit (sel ++ [c]) with
    | none => rw [hf] at h; exact absurd h (by simp)
    | some s =>
      rw [hf] at h
      cases hr : collectScores fit sel rest with
      | error f => rw [hr] at h; exact absurd h (by simp [Except.map])
      | ok l =>
        rw [hr] at h
        simp [Except.map] at h
        subst h
        simp [ih l hr]

/-- When the guard already fails, the loop exits at once with the state
unchanged, whatever the fuel. -/
theorem runLoop_cond_false (fit : List String → Option ℚ) (fuel : Nat)
    (st : LoopState) (h : loopCond st = false) :
    runLoop fit fuel st = some (.ok st) := by
  cases fuel <;> simp [runLoop, h]

theorem runLoop_succ_of_cond (fit : List String → Option ℚ) (fuel : Nat)
    (st : LoopState) (h : loopCond st = true) :
    runLoop fit (fuel + 1) st =
      match loopStep fit st with
      | .error e => some (.error e)
      | .ok st' => runLoop fit fuel st' := by
  simp [runLoop, h]

/-- `popBest` of a non-empty list always produces a pair, so `none` forces
the empty list. -/
theorem popBest_eq_none {l : List (ℚ × String)} (h : popBest l = none) :
    l = [] := by
  rw [popBest, List.getLast?_eq_none_iff] at h
  have := (List.perm_insertionSort (fun a b => pairLe a b = true) l).length_eq
  rw [h] at this
  exact List.length_eq_zero.mp this.symm

/-- Case analysis on one successful loop-body execution: either the pool was
already empty and nothing happened, or the best candidate was rejected and
only `best_new_score` changed, or the best candidate was accepted: it moved
from `remaining` to the end of `selected` with a strictly larger score (and
the stale last score was not 1, else the step would have raised). -/
theorem loopStep_shape (fit : List String → Option ℚ) (st st' : LoopState)
    (h : loopStep fit st = .ok st') :
    (st.remaining = [] ∧ st' = st) ∨
    (∃ swc bns bc lp,
      collectScores fit st.selected st.remaining = .ok swc ∧
      popBest swc = some (bns, bc) ∧ swc.getLast? = some lp ∧
      ¬ st.current_score < bns ∧ st' = { st with best_new_score := bns }) ∨
    (∃ swc bns bc lp,
      collectScores fit st.selected st.remaining = .ok swc ∧
      popBest swc = some (bns, bc) ∧ swc.getLast? = some lp ∧ lp.1 ≠ 1 ∧
      st.current_score < bns ∧ bc ∈ st.remaining ∧
      fit (st.selected ++ [bc]) = some bns ∧
      st' = ⟨st.remaining.erase bc, st.selected ++ [bc], bns, bns,
        st.trace ++ [bns]⟩) := by
  rw [loopStep] at h
  cases hc : collectScores fit st.selected st.remaining with
  | error f =>
    simp only [hc] at h
    exact absurd h (by simp)
  | ok swc =>
    simp only [hc] at h
    cases hp : popBest swc with
    | none =>
      have hnil : swc = [] := popBest_eq_none hp
      have hrem : st.remaining = [] := by
        have := collectScores_ok_length fit st.selected st.remaining swc hc
        rw [hnil] at this
        exact List.length_eq_zero.mp this.symm
      cases hl : swc.getLast? <;>
        · simp only [hp, hl] at h
          cases h
          exact Or.inl ⟨hrem, rfl⟩
    | some p =>
      obtain ⟨bns, bc⟩ := p
      cases hl : swc.getLast? with
      | none =>
        rw [List.getLast?_eq_none_iff] at hl
        subst hl
        simp [popBest] at hp
      | some lp =>
        simp only [hp, hl, beq_iff_eq] at h
        by_cases hlt : st.current_score < bns
        · rw [if_pos hlt] at h
          by_cases h1 : lp.1 = 1
          · rw [if_pos h1] at h
            cases h
          · rw [if_neg h1] at h
            cases h
            obtain ⟨hmem, hfit⟩ :=
              collectScores_ok_mem fit st.selected st.remaining swc hc
                (bns, bc) (popBest_mem hp)
            exact Or.inr (Or.inr ⟨swc, bns, bc, lp, rfl, hp, hl, h1, hlt, hmem,
              hfit, rfl⟩)
        · rw [if_neg hlt] at h
          cases h
          exact Or.inr (Or.inl ⟨swc, bns, bc, lp, rfl, hp, hl, hlt, rfl⟩)

/-- The conditional equations for the three ways a loop-body execution can
go once the best pair and the stale last pair are known. -/
theorem loopStep_eq_accept (fit : List String → Option ℚ) (st : LoopState)
    (swc : List (ℚ × String)) (bns : ℚ) (bc : String) (lp : ℚ × String)
    (hc : collectScores fit st.selected st.remaining = .ok swc)
    (hp : popBest swc = some (bns, bc)) (hl : swc.getLast? = some lp)
    (hlt : st.current_score < bns) (hne : lp.1 ≠ 1) :
    loopStep fit st =
      .ok ⟨st.remaining.erase bc, st.selected ++ [bc], bns, bns,
        st.trace ++ [bns]⟩ := by
  rw [loopStep]
  simp only [hc, hp, hl, beq_iff_eq]
  rw [if_pos hlt, if_neg hne]

theorem loopStep_eq_overfit (fit : List String → Option ℚ) (st : LoopState)
    (swc : List (ℚ × String)) (bns : ℚ) (bc : String) (lp : ℚ × String)
    (hc : collectScores fit st.selected st.remaining = .ok swc)
    (hp : popBest swc = some (bns, bc)) (hl : swc.getLast? = some lp)
    (hlt : st.current_score < bns) (h1 : lp.1 = 1) :
    loopStep fit st = .error (.typeError (st.selected ++ [bc])) := by
  rw [loopStep]
  simp only [hc, hp, hl, beq_iff_eq]
  rw [if_pos hlt, if_pos h1]

theorem loopStep_eq_reject (fit : List String → Option ℚ) (st : LoopState)
    (swc : List (ℚ × String)) (bns : ℚ) (bc : String) (lp : ℚ × String)
    (hc : collectScores fit st.selected st.remaining = .ok swc)
    (hp : popBest swc = some (bns, bc)) (hl : swc.getLast? = some lp)
    (hge : ¬ st.current_score < bns) :
    loopStep fit st = .ok { st with best_new_score := bns } := by
  rw [loopStep]
  simp only [hc, hp, hl, beq_iff_eq]
  rw [if_neg hge]

/-- Preservation of an arbitrary step-invariant along a completed run. -/
theorem runLoop_ok_rel (fit : List String → Option ℚ) (P : LoopState → Prop)
    (hstep : ∀ st st', P st → loopStep fit st = .ok st' → P st') :
    ∀ (fuel : Nat) (st st' : LoopState), P st →
      runLoop fit fuel st = some (.ok st') → P st' := by
  intro fuel
  induction fuel with
  | zero =>
    intro st st' hP h
    rw [runLoop] at h
    by_cases hcond : loopCond st
    · rw [if_pos hcond] at h; cases h
    · rw [if_neg hcond] at h
      cases h
      exact hP
  | succ n ih =>
    intro st st' hP h
    rw [runLoop] at h
    by_cases hcond : loopCond st
    · rw [if_pos hcond] at h
      cases hs : loopStep fit st with
      | error e => rw [hs] at h; simp at h
      | ok st'' =>
        rw [hs] at h
        exact ih st'' st' (hstep st st'' hP hs) h
    · rw [if_neg hcond] at h
      cases h
      exact hP

/-- Along a completed run the selected list only ever grows at the end. -/
theorem runLoop_selected_grows (fit : List String → Option ℚ) (fuel : Nat)
    (st st' : LoopState) (h : runLoop fit fuel st = some (.ok st')) :
    ∃ t, st'.selected = st.selected ++ t := by
  refine runLoop_ok_rel fit (fun s => ∃ t, s.selected = st.selected ++ t) ?_
    fuel st st' ⟨[], by simp⟩ h
  intro s s' ⟨t, ht⟩ hstep
  rcases loopStep_shape fit s s' hstep with ⟨_, rfl⟩ |
    ⟨swc, bns, bc, lp, _, _, _, _, rfl⟩ |
    ⟨swc, bns, bc, lp, _, _, _, _, _, _, _, rfl⟩
  · exact ⟨t, ht⟩
  · exact ⟨t, ht⟩
  · exact ⟨t ++ [bc], by simp [ht]⟩

/- ## Termination analysis -/

theorem currentOf_append (score : List String → ℚ) (sel : List String)
    (c : String) : currentOf score (sel ++ [c]) = score (sel ++ [c]) := by
  cases sel <;> rfl

/-- With a total fit whose value on any one-variable extension never equals
the running current score, the loop exits within `|remaining| + 1` body
executions: each iteration either accepts (removing one candidate) or makes
`best_new_score` differ from `current_score` (ending the loop), and an
exception also ends the run. -/
theorem runLoop_total_terminates (score : List String → ℚ)
    (h : ∀ sel c, score (sel ++ [c]) ≠ currentOf score sel) :
    ∀ (n : Nat) (st : LoopState), st.remaining.length = n →
      st.current_score = currentOf score st.selected →
      runLoop (totalFit score) (n + 1) st ≠ none := by
  intro n
  induction n using Nat.strong_induction_on with
  | _ n ih =>
    intro st hlen hcs
    by_cases hcond : loopCond st
    · have hrem : st.remaining ≠ [] := by
        intro hn
        rw [loopCond, hn] at hcond
        simp at hcond
      have hc := collectScores_totalFit score st.selected st.remaining
      have hswcne : scoresWithCandidates score st.selected st.remaining ≠ [] := by
        simp [scoresWithCandidates, hrem]
      obtain ⟨⟨bns, bc⟩, hp⟩ := popBest_isSome hswcne
      obtain ⟨lp, hl⟩ : ∃ lp,
          (scoresWithCandidates score st.selected st.remaining).getLast? =
            some lp := by
        cases hq : (scoresWithCandidates score st.selected st.remaining).getLast? with
        | none => exact absurd (List.getLast?_eq_none_iff.mp hq) hswcne
        | some lp => exact ⟨lp, rfl⟩
      obtain ⟨hmem, hfit⟩ := collectScores_ok_mem (totalFit score) st.selected
        st.remaining _ hc (bns, bc) (popBest_mem hp)
      have hbns : bns = score (st.selected ++ [bc]) := by
        have : some (score (st.selected ++ [bc])) = some bns := hfit
        injection this with h'
        exact h'.symm
      have hneq : bns ≠ st.current_score := by
        rw [hcs, hbns]
        exact h st.selected bc
      rw [runLoop_succ_of_cond _ _ _ hcond]
      by_cases hlt : st.current_score < bns
      · by_cases h1 : lp.1 = 1
        · rw [loopStep_eq_overfit _ _ _ _ _ _ hc hp hl hlt h1]
          simp
        · rw [loopStep_eq_accept _ _ _ _ _ _ hc hp hl hlt h1]
          have hn1 : 1 ≤ n := by
            rw [← hlen]
            exact List.length_pos.mpr hrem
          have hlen' : (st.remaining.erase bc).length = n - 1 := by
            rw [List.length_erase_of_mem hmem, hlen]
          have hrec := ih (n - 1) (by omega)
            ⟨st.remaining.erase bc, st.selected ++ [bc], bns, bns,
              st.trace ++ [bns]⟩ hlen'
            (by rw [currentOf_append]; exact hbns)
          rw [Nat.sub_add_cancel hn1] at hrec
          exact hrec
      · rw [loopStep_eq_reject _ _ _ _ _ _ hc hp hl hlt]
        have hbeq : (st.current_score == bns) = false := by
          rw [beq_eq_false_iff_ne]
          exact fun he => hneq he.symm
        have hcond' : loopCond { st with best_new_score := bns } = false := by
          simp [loopCond, hbeq]
        show runLoop (totalFit score) n { st with best_new_score := bns } ≠ none
        rw [runLoop_cond_false _ _ _ hcond']
        simp
    · rw [runLoop_cond_false _ _ _ (by simpa using hcond)]
      simp

/-- The sample score satisfies the no-tie side condition: every one-variable
extension changes the score. -/
theorem scoreRise_no_tie :
    ∀ sel c, scoreRise (sel ++ [c]) ≠ currentOf scoreRise sel := by
  intro sel c
  cases sel with
  | nil =>
    show scoreRise [c] ≠ 0
    simp [scoreRise]
  | cons x xs =>
    show scoreRise (x :: xs ++ [c]) ≠ scoreRise (x :: xs)
    simp only [scoreRise, Ne, Nat.cast_inj]
    simp [List.length_append]

/-- Unpacking a successful `data_mining` call into its final loop state. -/
theorem data_mining_ok_run (fit : List String → Option ℚ)
    (columns : List String) (dv : String) (fuel : Nat) (res : MiningResult)
    (h : data_mining fit columns dv fuel = some (.ok res)) :
    ∃ st, runLoop fit fuel (initState columns dv) = some (.ok st) ∧
      res.selected = st.selected ∧ res.current_score = st.current_score ∧
      res.trace = st.trace := by
  rw [data_mining] at h
  by_cases hdv : dv ∈ columns
  · rw [if_pos hdv] at h
    cases hr : runLoop fit fuel (initState columns dv) with
    | none => rw [hr] at h; cases h
    | some r =>
      cases r with
      | error e =>
        simp only [hr] at h
        simp at h
      | ok st =>
        simp only [hr] at h
        cases hf : fit st.selected with
        | none =>
          simp only [hf] at h
          simp at h
        | some q =>
          simp only [hf, Option.some.injEq, Except.ok.injEq] at h
          exact ⟨st, rfl, by rw [← h], by rw [← h], by rw [← h]⟩
  · rw [if_neg hdv] at h
    simp at h

theorem loopCond_remaining_ne {st : LoopState} (h : loopCond st = true) :
    st.remaining ≠ [] := by
  intro hn
  rw [loopCond, hn] at h
  simp at h

theorem runLoop_exit_eq (fit : List String → Option ℚ) (fuel : Nat)
    (st st' : LoopState) (hcond : loopCond st = false)
    (h : runLoop fit fuel st = some (.ok st')) : st' = st := by
  rw [runLoop_cond_false fit fuel st hcond] at h
  injection h with h'
  injection h' with h''
  exact h''.symm

theorem loopCond_congr (st₁ st₂ : LoopState)
    (hrem : st₁.remaining.Perm st₂.remaining)
    (hcs : st₁.current_score = st₂.current_score)
    (hbns : st₁.best_new_score = st₂.best_new_score) :
    loopCond st₁ = loopCond st₂ := by
  rw [loopCond, loopCond, hcs, hbns]
  have hlen := hrem.length_eq
  rcases h₁ : st₁.remaining with _ | ⟨a, l⟩ <;>
    rcases h₂ : st₂.remaining with _ | ⟨b, m⟩ <;>
      simp_all

/-- The loop is insensitive to the iteration order of the candidate set:
runs started from states that agree except for a permutation of `remaining`
and that both complete normally end in states agreeing the same way. -/
theorem runLoop_perm_ok (score : List String → ℚ) :
    ∀ (fuel₁ : Nat) (st₁ st₂ st₁' st₂' : LoopState) (fuel₂ : Nat),
      st₁.remaining.Perm st₂.remaining → st₁.selected = st₂.selected →
      st₁.current_score = st₂.current_score →
      st₁.best_new_score = st₂.best_new_score → st₁.trace = st₂.trace →
      runLoop (totalFit score) fuel₁ st₁ = some (.ok st₁') →
      runLoop (totalFit score) fuel₂ st₂ = some (.ok st₂') →
      st₁'.selected = st₂'.selected ∧
        st₁'.current_score = st₂'.current_score ∧
        st₁'.trace = st₂'.trace ∧ st₁'.remaining.Perm st₂'.remaining := by
  intro fuel₁
  induction fuel₁ with
  | zero =>
    intro st₁ st₂ st₁' st₂' fuel₂ hrem hsel hcs hbns htr h₁ h₂
    by_cases hcond : loopCond st₁ = true
    · rw [runLoop, if_pos hcond] at h₁
      cases h₁
    · have hcond₁ : loopCond st₁ = false := by
        cases hq : loopCond st₁ with
        | true => exact absurd hq hcond
        | false => rfl
      have hcond₂ : loopCond st₂ = false := by
        rw [← loopCond_congr st₁ st₂ hrem hcs hbns]
        exact hcond₁
      have e₁ := runLoop_exit_eq _ _ _ _ hcond₁ h₁
      have e₂ := runLoop_exit_eq _ _ _ _ hcond₂ h₂
      subst e₁
      subst e₂
      exact ⟨hsel, hcs, htr, hrem⟩
  | succ n ih =>
    intro st₁ st₂ st₁' st₂' fuel₂ hrem hsel hcs hbns htr h₁ h₂
    by_cases hcond : loopCond st₁ = true
    · have hcond₂ : loopCond st₂ = true := by
        rw [← loopCond_congr st₁ st₂ hrem hcs hbns]
        exact hcond
      cases fuel₂ with
      | zero =>
        rw [runLoop, if_pos hcond₂] at h₂
        cases h₂
      | succ m =>
        rw [runLoop_succ_of_cond _ _ _ hcond] at h₁
        rw [runLoop_succ_of_cond _ _ _ hcond₂] at h₂
        have hc₁ := collectScores_totalFit score st₁.selected st₁.remaining
        have hc₂ := collectScores_totalFit score st₂.selected st₂.remaining
        have hswcperm : (scoresWithCandidates score st₁.selected
            st₁.remaining).Perm
            (scoresWithCandidates score st₂.selected st₂.remaining) := by
          rw [hsel]
          exact hrem.map _
        have hswcne₁ : scoresWithCandidates score st₁.selected
            st₁.remaining ≠ [] := by
          simp [scoresWithCandidates, loopCond_remaining_ne hcond]
        have hswcne₂ : scoresWithCandidates score st₂.selected
            st₂.remaining ≠ [] := by
          simp [scoresWithCandidates, loopCond_remaining_ne hcond₂]
        obtain ⟨⟨bns, bc⟩, hp₁⟩ := popBest_isSome hswcne₁
        have hp₂ : popBest (scoresWithCandidates score st₂.selected
            st₂.remaining) = some (bns, bc) := by
          rw [← popBest_congr hswcperm]
          exact hp₁
        obtain ⟨lp₁, hl₁⟩ : ∃ lp, (scoresWithCandidates score st₁.selected
            st₁.remaining).getLast? = some lp := by
          cases hq : (scoresWithCandidates score st₁.selected
              st₁.remaining).getLast? with
          | none => exact absurd (List.getLast?_eq_none_iff.mp hq) hswcne₁
          | some lp => exact ⟨lp, rfl⟩
        obtain ⟨lp₂, hl₂⟩ : ∃ lp, (scoresWithCandidates score st₂.selected
            st₂.remaining).getLast? = some lp := by
          cases hq : (scoresWithCandidates score st₂.selected
              st₂.remaining).getLast? with
          | none => exact absurd (List.getLast?_eq_none_iff.mp hq) hswcne₂
          | some lp => exact ⟨lp, rfl⟩
        by_cases hlt : st₁.current_score < bns
        · have hlt₂ : st₂.current_score < bns := hcs ▸ hlt
          by_cases hov₁ : lp₁.1 = 1
          · rw [loopStep_eq_overfit _ _ _ _ _ _ hc₁ hp₁ hl₁ hlt hov₁] at h₁
            simp at h₁
          · by_cases hov₂ : lp₂.1 = 1
            · rw [loopStep_eq_overfit _ _ _ _ _ _ hc₂ hp₂ hl₂ hlt₂ hov₂] at h₂
              simp at h₂
            · rw [loopStep_eq_accept _ _ _ _ _ _ hc₁ hp₁ hl₁ hlt hov₁] at h₁
              rw [loopStep_eq_accept _ _ _ _ _ _ hc₂ hp₂ hl₂ hlt₂ hov₂] at h₂
              simp only [] at h₁ h₂
              refine ih _ _ st₁' st₂' m ?_ ?_ ?_ ?_ ?_ h₁ h₂
              · exact hrem.erase bc
              · rw [hsel]
              · rfl
              · rfl
              · rw [htr]
        · have hlt₂ : ¬ st₂.current_score < bns := hcs ▸ hlt
          rw [loopStep_eq_reject _ _ _ _ _ _ hc₁ hp₁ hl₁ hlt] at h₁
          rw [loopStep_eq_reject _ _ _ _ _ _ hc₂ hp₂ hl₂ hlt₂] at h₂
          simp only [] at h₁ h₂
          refine ih _ _ st₁' st₂' m ?_ ?_ ?_ ?_ ?_ h₁ h₂
          · exact hrem
          · exact hsel
          · exact hcs
          · rfl
          · exact htr
    · have hcond₁ : loopCond st₁ = false := by
        cases hq : loopCond st₁ with
        | true => exact absurd hq hcond
        | false => rfl
      have hcond₂ : loopCond st₂ = false := by
        rw [← loopCond_congr st₁ st₂ hrem hcs hbns]
        exact hcond₁
      have e₁ := runLoop_exit_eq _ _ _ _ hcond₁ h₁
      have e₂ := runLoop_exit_eq _ _ _ _ hcond₂ h₂
      subst e₁
      subst e₂
      exact ⟨hsel, hcs, htr, hrem⟩

/- ## The claims -/

/-- C1 (counterexample): with every adjusted R-squared equal to 0 the best
new score ties the current score (0), the loop body changes nothing, and the
loop never exits: after `|candidates| + 1 = 2` body executions — and indeed
after 100 — the loop is still running, refuting both termination and the
`|candidates| + 1` iteration bound. -/
theorem forward_selection_terminates_cex :
    data_mining (totalFit fun _ => 0) ["y", "a"] "y" 2 = none ∧
    data_mining (totalFit fun _ => 0) ["y", "a"] "y" 100 = none := by
  constructor <;> decide

/-- C1 (amended): for every input whose score function never returns, for a
candidate extension of the currently selected list, exactly the current
score (no exact tie against the running score), the forward-selection loop
of `data_mining` terminates within at most `|candidates| + 1` iterations of
the outer while loop.  (On an exact tie the body leaves the state unchanged
and the loop runs forever, as the counterexample shows.) -/
theorem forward_selection_terminates (score : List String → ℚ)
    (columns : List String) (dv : String)
    (h : ∀ sel c, score (sel ++ [c]) ≠ currentOf score sel) :
    data_mining (totalFit score) columns dv
      ((columns.erase dv).length + 1) ≠ none := by
  rw [data_mining]
  by_cases hdv : dv ∈ columns
  · rw [if_pos hdv]
    have hterm := runLoop_total_terminates score h (columns.erase dv).length
      (initState columns dv) rfl rfl
    cases hr : runLoop (totalFit score) ((columns.erase dv).length + 1)
        (initState columns dv) with
    | none => exact absurd hr hterm
    | some r =>
      cases r with
      | error e => simp [hr]
      | ok st => simp [hr, totalFit]
  · rw [if_neg hdv]
    simp

/-- Witness for C1 (amended): a concrete three-column run with a strictly
improving score completes within the bound. -/
theorem forward_selection_terminates_witness :
    data_mining (totalFit scoreRise) ["y", "a", "b"] "y" 3 ≠ none :=
  forward_selection_terminates scoreRise ["y", "a", "b"] "y" scoreRise_no_tie

/-- C6 (counterexample): a fit that raises on the single-candidate formula
`a` aborts the whole search with the propagated exception, even though the
other candidate `b` fits fine — `data_mining` does not treat the failed
candidate as unusable and does not continue. -/
theorem fit_failure_aborts_cex :
    data_mining failOnA ["y", "a", "b"] "y" 3 =
      some (.error (.fitError ["a"])) := by
  decide

/-- C6 (amended): `data_mining` has no per-candidate failure handling: when
the least-squares fit raises for some (selected-set, candidate) pair, the
exception propagates out of the inner loop and the whole search fails with
it; no candidate score is ever replaced by negative infinity.  (In practice
statsmodels' pinv-based OLS does not raise on singular designs, so the loop
continues only because every fit returns an ordinary numeric score.) -/
theorem fit_failure_propagates :
    (∀ (fit : List String → Option ℚ) (st : LoopState) (f : List String)
        (fuel : Nat), loopCond st = true →
        collectScores fit st.selected st.remaining = .error f →
        runLoop fit (fuel + 1) st = some (.error (.fitError f))) ∧
    (∀ (fit : List String → Option ℚ) (columns : List String) (dv : String)
        (fuel : Nat) (e : PyError), dv ∈ columns →
        runLoop fit fuel (initState columns dv) = some (.error e) →
        data_mining fit columns dv fuel = some (.error e)) := by
  constructor
  · intro fit st f fuel hcond hc
    rw [runLoop_succ_of_cond _ _ _ hcond, loopStep]
    simp only [hc]
  · intro fit columns dv fuel e hdv hr
    rw [data_mining, if_pos hdv]
    simp only [hr]

/-- Witness for C6 (amended): the concrete failing fit propagates through
`runLoop` and `data_mining`. -/
theorem fit_failure_propagates_witness :
    runLoop failOnA 3 (initState ["y", "a", "b"] ("y")) =
      some (.error (.fitError ["a"])) ∧
    data_mining failOnA ["y", "a", "b"] "y" 3 =
      some (.error (.fitError ["a"])) := by
  have h1 := fit_failure_propagates.1 failOnA (initState ["y", "a", "b"] ("y"))
    ["a"] 2 (by decide) (by decide)
  exact ⟨h1, fit_failure_propagates.2 failOnA ["y", "a", "b"] "y" 3 _
    (by decide) h1⟩

/-- C7: when the dependent variable is not among the columns,
`remaining.remove(dv)` raises `KeyError` before the loop starts: the call
fails immediately and returns no partial model. -/
theorem missing_dv_keyError (fit : List String → Option ℚ)
    (columns : List String) (dv : String) (fuel : Nat) (h : dv ∉ columns) :
    data_mining fit columns dv fuel = some (.error (.keyError dv)) := by
  rw [data_mining, if_neg h]

/-- Witness for C7. -/
theorem missing_dv_keyError_witness :
    data_mining (totalFit scoreRise) ["a", "b"] "y" 5 =
      some (.error (.keyError ("y"))) :=
  missing_dv_keyError (totalFit scoreRise) ["a", "b"] "y" 5 (by decide)

/-- C8: the three masks implement the repeating 4-row cycle on the sorted
rows: offsets 0 and 1 of each block of four go to train, offset 2 to
validate, offset 3 to test; the masks are pairwise disjoint and together
cover all 180 row positions. -/
theorem split_masks_partition :
    train_mask = (List.range 180).filter (fun i => i % 4 == 0 || i % 4 == 1) ∧
    validate_mask = (List.range 180).filter (fun i => i % 4 == 2) ∧
    test_mask = (List.range 180).filter (fun i => i % 4 == 3) ∧
    (∀ i ∈ train_mask, i ∉ validate_mask ∧ i ∉ test_mask) ∧
    (∀ i ∈ validate_mask, i ∉ test_mask) ∧
    (train_mask ++ validate_mask ++ test_mask).Perm (List.range 180) := by
  refine ⟨by decide, by decide, by decide, by decide, by decide, by decide⟩

/-- C9: the overfit check inside the accept branch reads the stale `score`
variable — the adjusted R-squared of whichever candidate the inner loop
evaluated last, not the accepted best candidate's — and compares it against
the literal 1; when it fires, the concatenation
`'model overfitted: ' + selected` (a string plus a list, with `selected`
non-empty since a candidate was just appended) raises `TypeError`, so the
routine fails instead of completing and returning a model (the third
conjunct: a loop exception is the result of the whole `data_mining` call).
When the stale last score is not 1 the step succeeds even if the accepted
best score is 1. -/
theorem overfit_check_stale_and_fatal (fit : List String → Option ℚ)
    (st : LoopState) (swc : List (ℚ × String)) (bns : ℚ) (bc : String)
    (lp : ℚ × String) (hcond : loopCond st = true)
    (hc : collectScores fit st.selected st.remaining = .ok swc)
    (hp : popBest swc = some (bns, bc)) (hl : swc.getLast? = some lp)
    (hlt : st.current_score < bns) :
    (lp.1 = 1 → ∀ fuel, runLoop fit (fuel + 1) st =
      some (.error (.typeError (st.selected ++ [bc])))) ∧
    (lp.1 ≠ 1 → loopStep fit st =
      .ok ⟨st.remaining.erase bc, st.selected ++ [bc], bns, bns,
        st.trace ++ [bns]⟩) ∧
    (∀ (columns : List String) (dv : String) (fuel : Nat) (e : PyError),
      dv ∈ columns → runLoop fit fuel (initState columns dv) =
        some (.error e) →
      data_mining fit columns dv fuel = some (.error e)) := by
  refine ⟨?_, ?_, ?_⟩
  · intro h1 fuel
    rw [runLoop_succ_of_cond _ _ _ hcond,
      loopStep_eq_overfit _ _ _ _ _ _ hc hp hl hlt h1]
  · intro hne
    exact loopStep_eq_accept _ _ _ _ _ _ hc hp hl hlt hne
  · intro columns dv fuel e hdv hr
    rw [data_mining, if_pos hdv]
    simp only [hr]

/-- Witness for C9: with scores `a ↦ 1`, `b ↦ 2` and iteration order
`[b, a]`, the best candidate `b` (score 2) is accepted but the stale last
score is `a`'s 1, so the run aborts with `TypeError` carrying the non-empty
selected list. -/
theorem overfit_check_stale_and_fatal_witness :
    runLoop (totalFit scoreStale) 1 (initState ["y", "b", "a"] ("y")) =
      some (.error (.typeError ["b"])) ∧
    data_mining (totalFit scoreStale) ["y", "b", "a"] "y" 1 =
      some (.error (.typeError ["b"])) := by
  have h := overfit_check_stale_and_fatal (totalFit scoreStale)
    (initState ["y", "b", "a"] ("y")) [(2, "b"), (1, "a")] 2 "b" (1, "a")
    (by decide) (by decide) (by decide) (by decide) (by decide)
  exact ⟨h.1 rfl 0, h.2.2 ["y", "b", "a"] "y" 1 _ (by decide) (h.1 rfl 0)⟩

/-- C10: when an accepted step appends the candidate `bc`, that candidate's
score is maximal among all candidates of this step, and among the candidates
attaining that maximal score `bc` has the lexicographically greatest column
name — the `(score, candidate)` pairs are sorted and the last pair popped. -/
theorem tie_break_greatest_name (score : List String → ℚ) (st st' : LoopState)
    (bc : String) (hstep : loopStep (totalFit score) st = .ok st')
    (hsel : st'.selected = st.selected ++ [bc]) :
    bc ∈ st.remaining ∧
    (∀ c ∈ st.remaining,
      score (st.selected ++ [c]) ≤ score (st.selected ++ [bc])) ∧
    (∀ c ∈ st.remaining,
      score (st.selected ++ [c]) = score (st.selected ++ [bc]) →
      strLe c bc = true) := by
  rcases loopStep_shape _ _ _ hstep with ⟨hrem, rfl⟩ |
    ⟨swc, bns, bc', lp, hc, hp, hl, hge, heq⟩ |
    ⟨swc, bns, bc', lp, hc, hp, hl, h1, hlt, hmem, hfit, heq⟩
  · exact absurd hsel (by simp)
  · rw [heq] at hsel
    exact absurd hsel (by simp)
  · rw [heq] at hsel
    simp only at hsel
    have hbc : bc' = bc := by
      have := List.append_cancel_left hsel
      simpa using this
    subst hbc
    rw [collectScores_totalFit] at hc
    have hswc : scoresWithCandidates score st.selected st.remaining = swc := by
      injection hc
    subst hswc
    have hbns : bns = score (st.selected ++ [bc']) := by
      have : some (score (st.selected ++ [bc'])) = some bns := hfit
      injection this with h'
      exact h'.symm
    subst hbns
    refine ⟨hmem, ?_, ?_⟩
    · intro c hcmem
      have hin : (score (st.selected ++ [c]), c) ∈
          scoresWithCandidates score st.selected st.remaining :=
        List.mem_map.mpr ⟨c, hcmem, rfl⟩
      have := popBest_max hp _ hin
      rw [pairLe_iff] at this
      rcases this with h' | ⟨h', _⟩
      · exact le_of_lt h'
      · exact le_of_eq h'
    · intro c hcmem hceq
      have hin : (score (st.selected ++ [c]), c) ∈
          scoresWithCandidates score st.selected st.remaining :=
        List.mem_map.mpr ⟨c, hcmem, rfl⟩
      have := popBest_max hp _ hin
      rw [pairLe_iff] at this
      rcases this with h' | ⟨_, h'⟩
      · exact absurd h' (by rw [hceq]; exact lt_irrefl _)
      · exact h'

/-- Witness for C10: with the length-based score both candidates `a` and `b`
tie at score 2 on the first step, and the accepted candidate is `b`, the
lexicographically greater name. -/
theorem tie_break_greatest_name_witness :
    ("b" : String) ∈ ["a", "b"] ∧
    (∀ c ∈ ["a", "b"], scoreRise ([] ++ [c]) ≤ scoreRise ([] ++ ["b"])) ∧
    (∀ c ∈ ["a", "b"], scoreRise ([] ++ [c]) = scoreRise ([] ++ ["b"]) →
      strLe c "b" = true) := by
  have h := tie_break_greatest_name scoreRise
    (initState ["y", "a", "b"] ("y")) ⟨["a"], ["b"], 2, 2, [2]⟩ "b"
    (by decide) rfl
  exact ⟨h.1, h.2.1, h.2.2⟩

/-- C2: along every completed run, the sequence of `current_score` values
printed at accepted steps is strictly increasing (hence also
non-decreasing): a candidate is accepted only when its adjusted R-squared
strictly exceeds the current score. -/
theorem accepted_scores_strictly_increase (fit : List String → Option ℚ)
    (columns : List String) (dv : String) (fuel : Nat) (res : MiningResult)
    (h : data_mining fit columns dv fuel = some (.ok res)) :
    res.trace.Chain' (· < ·) ∧ res.trace.Chain' (· ≤ ·) := by
  obtain ⟨st, hr, _, _, htr⟩ := data_mining_ok_run fit columns dv fuel res h
  have hP := runLoop_ok_rel fit
    (fun s => s.trace.Chain' (· < ·) ∧ ∀ x ∈ s.trace, x ≤ s.current_score)
    ?_ fuel _ st ⟨List.chain'_nil, by simp [initState]⟩ hr
  · rw [htr]
    exact ⟨hP.1, hP.1.imp fun a b hab => le_of_lt hab⟩
  · intro s s' hPs hstep
    obtain ⟨hch, hub⟩ := hPs
    rcases loopStep_shape _ _ _ hstep with ⟨_, rfl⟩ |
      ⟨swc, bns, bc, lp, _, _, _, _, heq⟩ |
      ⟨swc, bns, bc, lp, _, _, _, _, hlt, _, _, heq⟩
    · exact ⟨hch, hub⟩
    · rw [heq]
      exact ⟨hch, hub⟩
    · rw [heq]
      refine ⟨?_, ?_⟩
      · refine List.Chain'.append hch (List.chain'_singleton _) ?_
        intro x hx y hy
        simp at hy
        subst hy
        exact lt_of_le_of_lt (hub x (List.mem_of_mem_getLast? hx)) hlt
      · intro x hx
        rcases List.mem_append.mp hx with hx | hx
        · exact le_of_lt (lt_of_le_of_lt (hub x hx) hlt)
        · simp only [List.mem_singleton] at hx
          subst hx
          exact le_refl _

/-- Witness for C2: the concrete run accepts at scores 2 then 3. -/
theorem accepted_scores_strictly_increase_witness :
    ([2, 3] : List ℚ).Chain' (· < ·) ∧ ([2, 3] : List ℚ).Chain' (· ≤ ·) :=
  accepted_scores_strictly_increase (totalFit scoreRise) ["y", "a", "b"] "y" 3
    ⟨["b", "a"], 3, [2, 3]⟩ (by decide)

/-- C4: one loop-body execution preserves the state invariant — `selected`
and `remaining` duplicate-free and disjoint, jointly holding the `n₀`
initial candidates — and either leaves `remaining` and `selected` unchanged
or moves exactly one candidate (so `remaining` shrinks by exactly one at
each accepted step and never regrows); consequently, on every completed run
from duplicate-free columns, the returned `selected` has no duplicates and
its length never exceeds the initial number of candidates. -/
theorem selection_invariants :
    (∀ (fit : List String → Option ℚ) (n₀ : Nat) (st st' : LoopState),
      StateInv n₀ st → loopStep fit st = .ok st' →
      StateInv n₀ st' ∧
        (st'.remaining = st.remaining ∧ st'.selected = st.selected ∨
          st'.remaining.length + 1 = st.remaining.length ∧
            st'.selected.length = st.selected.length + 1)) ∧
    (∀ (fit : List String → Option ℚ) (columns : List String) (dv : String)
      (fuel : Nat) (res : MiningResult), columns.Nodup →
      data_mining fit columns dv fuel = some (.ok res) →
      res.selected.Nodup ∧ res.selected.length ≤ (columns.erase dv).length) := by
  have hstep : ∀ (fit : List String → Option ℚ) (n₀ : Nat) (st st' : LoopState),
      StateInv n₀ st → loopStep fit st = .ok st' →
      StateInv n₀ st' ∧
        (st'.remaining = st.remaining ∧ st'.selected = st.selected ∨
          st'.remaining.length + 1 = st.remaining.length ∧
            st'.selected.length = st.selected.length + 1) := by
    intro fit n₀ st st' hinv h
    obtain ⟨hns, hnr, hdis, hcnt⟩ := hinv
    rcases loopStep_shape _ _ _ h with ⟨_, rfl⟩ |
      ⟨swc, bns, bc, lp, _, _, _, _, heq⟩ |
      ⟨swc, bns, bc, lp, _, _, _, _, _, hmem, _, heq⟩
    · exact ⟨⟨hns, hnr, hdis, hcnt⟩, Or.inl ⟨rfl, rfl⟩⟩
    · rw [heq]
      exact ⟨⟨hns, hnr, hdis, hcnt⟩, Or.inl ⟨rfl, rfl⟩⟩
    · rw [heq]
      have hbc_not_sel : bc ∉ st.selected := fun hin => hdis bc hin hmem
      have hrem_pos : 0 < st.remaining.length :=
        List.length_pos.mpr (List.ne_nil_of_mem hmem)
      refine ⟨⟨?_, hnr.erase bc, ?_, ?_⟩, Or.inr ⟨?_, ?_⟩⟩
      · rw [List.nodup_append]
        exact ⟨hns, List.nodup_singleton bc, fun a ha => by
          simp only [List.mem_singleton]
          exact fun hab => hbc_not_sel (hab ▸ ha)⟩
      · intro x hx
        rcases List.mem_append.mp hx with hx | hx
        · exact fun hx' => hdis x hx (List.mem_of_mem_erase hx')
        · simp only [List.mem_singleton] at hx
          subst hx
          exact hnr.not_mem_erase
      · simp only [List.length_erase_of_mem hmem, List.length_append,
          List.length_singleton]
        omega
      · simp only [List.length_erase_of_mem hmem]
        omega
      · simp [List.length_append]
  refine ⟨hstep, ?_⟩
  intro fit columns dv fuel res hnd h
  obtain ⟨st, hr, hsel, _, _⟩ := data_mining_ok_run fit columns dv fuel res h
  have hinv : StateInv (columns.erase dv).length st := by
    refine runLoop_ok_rel fit (StateInv (columns.erase dv).length)
      (fun s s' hs h' => (hstep fit _ s s' hs h').1) fuel _ st ?_ hr
    exact ⟨List.nodup_nil, hnd.erase dv, by simp [initState], by simp [initState]⟩
  obtain ⟨hns, _, _, hcnt⟩ := hinv
  rw [hsel]
  exact ⟨hns, by omega⟩

/-- Witness for C4: the concrete run returns the duplicate-free selection
`[b, a]`, whose length does not exceed the two initial candidates. -/
theorem selection_invariants_witness :
    (["b", "a"] : List String).Nodup ∧
    (["b", "a"] : List String).length ≤
      ((["y", "a", "b"] : List String).erase "y").length :=
  selection_invariants.2 (totalFit scoreRise) ["y", "a", "b"] "y" 3
    ⟨["b", "a"], 3, [2, 3]⟩ (by decide) (by decide)

/-- C5: `data_mining` is deterministic on identical input.  The candidate
pool is a Python set whose iteration order is arbitrary, so two runs on the
same columns are modelled as runs on permuted column lists; whenever both
complete, the selected sequences are identical element-for-element and the
final scores (and printed traces) are equal — the `(score, name)` sort plus
pop is a deterministic tie-break. -/
theorem deterministic_on_identical_input (score : List String → ℚ)
    (columns₁ columns₂ : List String) (dv : String) (fuel₁ fuel₂ : Nat)
    (res₁ res₂ : MiningResult) (hperm : columns₁.Perm columns₂)
    (h₁ : data_mining (totalFit score) columns₁ dv fuel₁ = some (.ok res₁))
    (h₂ : data_mining (totalFit score) columns₂ dv fuel₂ = some (.ok res₂)) :
    res₁.selected = res₂.selected ∧
      res₁.current_score = res₂.current_score ∧
      res₁.trace = res₂.trace := by
  obtain ⟨st₁, hr₁, hs₁, hc₁, ht₁⟩ :=
    data_mining_ok_run (totalFit score) columns₁ dv fuel₁ res₁ h₁
  obtain ⟨st₂, hr₂, hs₂, hc₂, ht₂⟩ :=
    data_mining_ok_run (totalFit score) columns₂ dv fuel₂ res₂ h₂
  have hmain := runLoop_perm_ok score fuel₁ (initState columns₁ dv)
    (initState columns₂ dv) st₁ st₂ fuel₂ (hperm.erase dv) rfl rfl rfl rfl
    hr₁ hr₂
  refine ⟨?_, ?_, ?_⟩
  · rw [hs₁, hs₂, hmain.1]
  · rw [hc₁, hc₂, hmain.2.1]
  · rw [ht₁, ht₂, hmain.2.2.1]

/-- Witness for C5: the two iteration orders of the same three columns give
the same selection, final score and trace. -/
theorem deterministic_on_identical_input_witness :
    (["b", "a"] : List String) = ["b", "a"] ∧ (3 : ℚ) = 3 ∧
      ([2, 3] : List ℚ) = [2, 3] :=
  deterministic_on_identical_input scoreRise ["y", "a", "b"] ["y", "b", "a"]
    "y" 3 7 ⟨["b", "a"], 3, [2, 3]⟩ ⟨["b", "a"], 3, [2, 3]⟩ (by decide)
    (by decide) (by decide)

/-- C3: when some candidate's single-variable model strictly beats the
initial score 0, the first iteration accepts, and the first entry of the
returned selection is a candidate whose single-variable adjusted R-squared
is maximal among all single-variable models. -/
theorem first_selected_is_best_single (score : List String → ℚ)
    (columns : List String) (dv : String) (fuel : Nat) (res : MiningResult)
    (h : data_mining (totalFit score) columns dv fuel = some (.ok res))
    (himpr : ∃ c ∈ columns.erase dv, 0 < score [c]) :
    ∃ c₀, res.selected.head? = some c₀ ∧ c₀ ∈ columns.erase dv ∧
      ∀ c ∈ columns.erase dv, score [c] ≤ score [c₀] := by
  obtain ⟨st, hr, hsel, _, _⟩ :=
    data_mining_ok_run (totalFit score) columns dv fuel res h
  obtain ⟨cw, hcw, hcpos⟩ := himpr
  have hremne : columns.erase dv ≠ [] := List.ne_nil_of_mem hcw
  have hcond : loopCond (initState columns dv) = true := by
    rw [loopCond]
    rcases hq : columns.erase dv with _ | ⟨a, l⟩
    · exact absurd hq hremne
    · show (!(columns.erase dv).isEmpty && ((0 : ℚ) == 0)) = true
      rw [hq]
      simp
  cases fuel with
  | zero =>
    rw [runLoop, if_pos hcond] at hr
    cases hr
  | succ n =>
    rw [runLoop_succ_of_cond _ _ _ hcond] at hr
    cases hstep : loopStep (totalFit score) (initState columns dv) with
    | error e =>
      simp only [hstep] at hr
      simp at hr
    | ok st1 =>
      simp only [hstep] at hr
      rcases loopStep_shape _ _ _ hstep with ⟨hre, heq1⟩ |
        ⟨swc, bns, bc, lp, hc, hp, hl, hge, heq⟩ |
        ⟨swc, bns, bc, lp, hc, hp, hl, hov, hlt, hmem, hfit, heq⟩
      · exact absurd hre hremne
      · exfalso
        rw [collectScores_totalFit] at hc
        injection hc with hc'
        subst hc'
        have hin : (score ((initState columns dv).selected ++ [cw]), cw) ∈
            scoresWithCandidates score (initState columns dv).selected
              (initState columns dv).remaining :=
          List.mem_map.mpr ⟨cw, hcw, rfl⟩
        have hmax := popBest_max hp _ hin
        rw [pairLe_iff] at hmax
        have hle : score [cw] ≤ bns := by
          rcases hmax with h' | ⟨h', _⟩
          · exact le_of_lt h'
          · exact le_of_eq h'
        exact hge (lt_of_lt_of_le hcpos hle)
      · rw [collectScores_totalFit] at hc
        injection hc with hc'
        subst hc'
        subst heq
        obtain ⟨t, ht⟩ := runLoop_selected_grows (totalFit score) n _ st hr
        refine ⟨bc, ?_, hmem, ?_⟩
        · rw [hsel, ht]
          rfl
        · intro c hcmem
          have hbns : bns = score [bc] := by
            have hq : some (score ((initState columns dv).selected ++ [bc])) =
                some bns := hfit
            injection hq with hq'
            exact hq'.symm
          have hin : (score ((initState columns dv).selected ++ [c]), c) ∈
              scoresWithCandidates score (initState columns dv).selected
                (initState columns dv).remaining :=
            List.mem_map.mpr ⟨c, hcmem, rfl⟩
          have hmax := popBest_max hp _ hin
          rw [pairLe_iff] at hmax
          rw [← hbns]
          rcases hmax with h' | ⟨h', _⟩
          · exact le_of_lt h'
          · exact le_of_eq h'

/-- Witness for C3: in the concrete run the first selected candidate `b`
attains the (tied) maximal single-variable score. -/
theorem first_selected_is_best_single_witness :
    ∃ c₀, (["b", "a"] : List String).head? = some c₀ ∧
      c₀ ∈ (["y", "a", "b"] : List String).erase "y" ∧
      ∀ c ∈ (["y", "a", "b"] : List String).erase "y",
        scoreRise [c] ≤ scoreRise [c₀] :=
  first_selected_is_best_single scoreRise ["y", "a", "b"] "y" 3
    ⟨["b", "a"], 3, [2, 3]⟩ (by decide) ⟨"a", by decide, by decide⟩

end Lesson06
